import Mathlib

/-!
# Verification of the symlink-tree walker (`bin/symlink-tree.py`)

This file gives a shallow embedding of the symlink tree walker and proves the
specification claims about it.

## The filesystem model

The walker only interacts with the filesystem through a fixed set of probes:
`iterdir()` (directory listing, which can raise `PermissionError`/`OSError`),
`is_symlink()`, `is_dir()` (which follows symlinks), `readlink()` (which can
raise `OSError`), `resolve()` (which can fail on circular chains), and
`exists()`.  A filesystem is therefore modelled as a finite tree of entries in
which every directory carries the outcome of listing it and every symlink
carries the outcomes of the probes the code can make on it.  Note that the
code's existence probe is `target.exists()` where `target` is the *raw*
`readlink()` result: for a relative raw target this resolves against the
process working directory, not against the link's parent, so the model records
both that outcome (`existsRaw`) and the ground-truth outcome of following the
link from its own location (`existsViaLink`).

Symlinks are leaves of the model tree: the walker never descends through a
symlink (both recursions guard with `is_dir() and not is_symlink()`), so the
contents behind a symlinked directory are not part of the scanned tree.
-/

namespace SymlinkTree

/-- Outcome of a listing attempt that failed: `iterdir()` raised
`PermissionError` or some other `OSError`. -/
inductive ListErr where
  | perm
  | os (msg : String)
deriving Repr, DecidableEq

/-- Outcome of a boolean filesystem probe that can raise: either a boolean
result, or an `OSError`/`RuntimeError` being raised. -/
inductive ExcRes where
  | ok (b : Bool)
  | raises
deriving Repr, DecidableEq

/-- Oracle record for a single symlink entry: the outcome of every probe the
walker can make on it.
* `readlinkErr`: `some msg` if `entry.readlink()` raises `OSError`.
* `isAbs`: whether the raw target path is absolute.
* `rawStr`: the raw target as a string (display for absolute targets).
* `resolveOk`: for a relative raw target, `some s` if
  `(entry.parent / target).resolve()` succeeds with canonical path `s`,
  `none` if it raises (circular chain).
* `absStr`: `(entry.parent / target).absolute()` as a string (the fallback
  display when `resolve()` fails).
* `isDirFollow`: result of `entry.is_dir()` (which follows the link).
* `existsRaw`: result of `target.exists()` on the raw readlink result — for a
  relative target this is resolved against the process working directory.
* `existsViaLink`: ground truth — whether the link's ultimate target exists
  when the relative raw target is interpreted against the link's parent
  directory (the outcome `entry.exists()` would report). -/
structure SymlinkInfo where
  readlinkErr : Option String
  isAbs : Bool
  rawStr : String
  resolveOk : Option String
  absStr : String
  isDirFollow : Bool
  existsRaw : ExcRes
  existsViaLink : ExcRes
deriving Repr, DecidableEq

/-- One entry of the modelled filesystem tree.
* `file`: an entry that is neither a symlink nor a directory.
* `symlink`: a symbolic link together with its probe oracle (a leaf — the
  walker never descends through symlinks).
* `dir`: a real (non-symlink) directory; `lerr` is `some e` when listing it
  fails with error `e`, and `entries` are its children. -/
inductive FSEntry where
  | file (name : String)
  | symlink (name : String) (info : SymlinkInfo)
  | dir (name : String) (lerr : Option ListErr) (entries : List FSEntry)
deriving Repr

/-- `entry.name` (the basename). -/
def FSEntry.name : FSEntry → String
  | .file n => n
  | .symlink n _ => n
  | .dir n _ _ => n

/-- `entry.is_symlink()`. -/
def FSEntry.is_symlink : FSEntry → Bool
  | .symlink _ _ => true
  | _ => false

/-- `entry.is_dir()` — follows symlinks, so a symlink to an existing directory
reports `true` (pathlib swallows `OSError` here and reports `false`). -/
def FSEntry.is_dir : FSEntry → Bool
  | .dir _ _ _ => true
  | .symlink _ info => info.isDirFollow
  | .file _ => false

/-- A non-symlink directory: `entry.is_dir() and not entry.is_symlink()`. -/
def FSEntry.isPlainDir : FSEntry → Bool
  | .dir _ _ _ => true
  | _ => false

/-- An entry that is neither a symlink nor a directory. -/
def FSEntry.isFile : FSEntry → Bool
  | .file _ => true
  | _ => false

/-- Python's `≤` on strings: lexicographic by Unicode code point, on the
underlying character lists. -/
def lexLE : List Char → List Char → Bool
  | [], _ => true
  | _ :: _, [] => false
  | a :: as, b :: bs =>
    if a.toNat < b.toNat then true
    else if b.toNat < a.toNat then false
    else lexLE as bs

theorem lexLE_total : ∀ as bs, lexLE as bs = true ∨ lexLE bs as = true := by
  intro as
  induction as with
  | nil => intro bs; left; rfl
  | cons a as ih =>
    intro bs
    cases bs with
    | nil => right; rfl
    | cons b bs =>
      by_cases hab : a.toNat < b.toNat
      · left; simp [lexLE, hab]
      · by_cases hba : b.toNat < a.toNat
        · right; simp [lexLE, hba]
        · rcases ih bs with h | h
          · left; simp [lexLE, hab, hba, h]
          · right; simp [lexLE, hab, hba, h]

theorem lexLE_trans :
    ∀ as bs cs, lexLE as bs = true → lexLE bs cs = true → lexLE as cs = true := by
  intro as
  induction as with
  | nil => intro bs cs _ _; rfl
  | cons a as ih =>
    intro bs cs h1 h2
    cases bs with
    | nil => simp [lexLE] at h1
    | cons b bs =>
      cases cs with
      | nil => simp [lexLE] at h2
      | cons c cs =>
        simp only [lexLE] at h1 h2 ⊢
        split_ifs at h1 h2 ⊢ with g1 g2 g3 g4 g5 g6 <;> try rfl
        all_goals (try omega)
        all_goals (try simp_all)
        exact ih bs cs h1 h2

/-- `name.lower()` as a character list (ASCII case folding; Python's
`str.lower()` agrees with this on ASCII names). -/
def lowerChars (s : String) : List Char := s.data.map Char.toLower

/-- The sort key of line 83: `(not e.is_dir(), e.name.lower())`. -/
def sortKey (e : FSEntry) : Bool × List Char := (!e.is_dir, lowerChars e.name)

/-- Python's `≤` on the sort key tuples: lexicographic on
`Bool × String` with `false < true`. -/
def keyLE (a b : FSEntry) : Bool :=
  if (sortKey a).1 = (sortKey b).1 then lexLE (sortKey a).2 (sortKey b).2
  else (sortKey b).1

/-- The key order as a decidable relation. -/
def keyRel (a b : FSEntry) : Prop := keyLE a b = true

instance : DecidableRel keyRel := fun a b => by
  unfold keyRel; infer_instance

instance : IsTotal FSEntry keyRel where
  total a b := by
    unfold keyRel keyLE
    rcases lexLE_total (sortKey a).2 (sortKey b).2 with h | h <;>
      cases ha : (sortKey a).1 <;> cases hb : (sortKey b).1 <;>
        simp [ha, hb, h]

instance : IsTrans FSEntry keyRel where
  trans a b c hab hbc := by
    unfold keyRel keyLE at *
    cases ha : (sortKey a).1 <;> cases hb : (sortKey b).1 <;>
      cases hc : (sortKey c).1 <;> simp_all
    · exact lexLE_trans _ _ _ hab hbc
    · exact lexLE_trans _ _ _ hab hbc

/-- Line 82–84: `sorted(current_dir.iterdir(), key=lambda e: (not e.is_dir(),
e.name.lower()))`.  Python's `sorted` is a stable sort by the key; insertion
sort is stable, and no claim depends on the order of entries with equal keys. -/
def sortEntries (l : List FSEntry) : List FSEntry := l.insertionSort keyRel

/-- The depth guard `max_depth is not None and current_depth > max_depth`. -/
def overLimit (c : Nat) (m : Option Nat) : Bool :=
  match m with
  | none => false
  | some k => decide (c > k)

/-- The depth admission `max_depth is None or current_depth <= max_depth`. -/
def withinLimit (c : Nat) (m : Option Nat) : Bool :=
  match m with
  | none => true
  | some k => decide (c ≤ k)

mutual

/-- Lines 26–54, `has_symlinks_recursive(path, current_depth, max_depth)`:
fast pre-check whether a directory subtree contains any symlink, with listing
errors swallowed (`except (PermissionError, OSError): pass`) and recursion
only into non-symlink directories.  Calling it on a non-directory raises
`NotADirectoryError`, which the same handler swallows into `False`. -/
def has_symlinks_recursive (path : FSEntry) (current_depth : Nat)
    (max_depth : Option Nat) : Bool :=
  if overLimit current_depth max_depth then false
  else
    match path with
    | .dir _ none entries => hasSymLoop entries current_depth max_depth
    | _ => false

/-- The `for entry in path.iterdir()` loop body of `has_symlinks_recursive`. -/
def hasSymLoop (entries : List FSEntry) (current_depth : Nat)
    (max_depth : Option Nat) : Bool :=
  match entries with
  | [] => false
  | e :: rest =>
    if e.is_symlink && withinLimit current_depth max_depth then true
    else if e.isPlainDir then
      if has_symlinks_recursive e (current_depth + 1) max_depth then true
      else hasSymLoop rest current_depth max_depth
    else hasSymLoop rest current_depth max_depth

end

/-- A node of the rich tree report built by the walker.
* `linkEntry`: the styled label `name -> display` (plus `[broken]` when the
  broken flag is set) added for a symlink whose `readlink()` succeeded
  (lines 113–130).
* `linkError`: the label `name -> [broken: msg]` added when `readlink()`
  raises `OSError` (lines 131–135).  Both forms are report entries for a
  discovered symlink (LinkEntry nodes in the spec's terms).
* `errNode`: the inline `[Permission denied]` / `[Error: ...]` placeholder
  (lines 85–90).
* `dirNode`: a directory node with its ordered children (line 139). -/
inductive RNode where
  | linkEntry (name : String) (display : String) (broken : Bool)
  | linkError (name : String) (msg : String)
  | errNode (msg : String)
  | dirNode (name : String) (children : List RNode)
deriving Repr

/-- The display string for a symlink target (lines 101–111): an absolute raw
target verbatim; a relative raw target joined against the link's parent and
canonicalised by `resolve()`, falling back to the joined `absolute()` path
when resolution fails. -/
def targetDisplay (info : SymlinkInfo) : String :=
  if info.isAbs then info.rawStr
  else
    match info.resolveOk with
    | some r => r
    | none => info.absStr

/-- The broken check (lines 120–125): `target.exists()` on the raw readlink
result; `False` result or a raised `OSError`/`RuntimeError` marks the entry
broken. -/
def brokenCheck (info : SymlinkInfo) : Bool :=
  match info.existsRaw with
  | .ok b => !b
  | .raises => true

/-- The node added for one symlink entry (lines 100–135): the styled label on
`readlink()` success, the `[broken: e]` label when `readlink()` raises. -/
def symlinkNode (nm : String) (info : SymlinkInfo) : RNode :=
  match info.readlinkErr with
  | some msg => .linkError nm msg
  | none => .linkEntry nm (targetDisplay info) (brokenCheck info)

theorem perm_sizeOf_eq {l₁ l₂ : List FSEntry} (h : l₁.Perm l₂) :
    sizeOf l₁ = sizeOf l₂ := by
  induction h with
  | nil => rfl
  | cons x _ ih => simp [ih]
  | swap x y l => simp; omega
  | trans _ _ ih₁ ih₂ => omega

theorem sizeOf_sortEntries (l : List FSEntry) : sizeOf (sortEntries l) = sizeOf l :=
  perm_sizeOf_eq (List.perm_insertionSort keyRel l)

mutual

/-- Lines 57–148, `build_symlink_tree(root_dir, current_dir, parent_tree,
current_depth, max_depth)`.  The returned pair is the list of nodes the call
attaches to `parent_tree`, in order, together with the `found_symlinks`
result.  The `root_dir` parameter exists in the source only to compute
`entry_depth = len(entry.relative_to(root_dir).parts)`; along the recursion
(root at depth 0, each recursive call one deeper) that length is always
`current_depth + 1`, which the embedding uses directly.  Listing a
non-directory raises `NotADirectoryError`, an `OSError` (line 88). -/
def build_symlink_tree (current_dir : FSEntry) (current_depth : Nat)
    (max_depth : Option Nat) : List RNode × Bool :=
  if overLimit current_depth max_depth then ([], false)
  else
    match current_dir with
    | .dir _ (some .perm) _ => ([.errNode "[Permission denied]"], false)
    | .dir _ (some (.os msg)) _ => ([.errNode ("[Error: " ++ msg ++ "]")], false)
    | .dir _ none entries => buildLoop (sortEntries entries) current_depth max_depth
    | _ => ([.errNode "[Error: NotADirectoryError]"], false)
termination_by sizeOf current_dir
decreasing_by
  simp_wf
  rw [sizeOf_sortEntries]
  omega

/-- The `for entry in entries` loop of `build_symlink_tree` (lines 92–148),
over the already sorted listing.  A symlink beyond the depth limit is skipped
(lines 95–97); an admitted symlink sets `found_symlinks` and adds its node; a
non-symlink directory is recursed into only when `has_symlinks_recursive`
approves it, and the directory node is kept only when the recursive call
reports findings (lines 136–146); other entries contribute nothing. -/
def buildLoop (entries : List FSEntry) (current_depth : Nat)
    (max_depth : Option Nat) : List RNode × Bool :=
  match entries with
  | [] => ([], false)
  | .file _ :: rest => buildLoop rest current_depth max_depth
  | .symlink nm info :: rest =>
    if overLimit (current_depth + 1) max_depth then
      buildLoop rest current_depth max_depth
    else
      (symlinkNode nm info :: (buildLoop rest current_depth max_depth).1, true)
  | .dir nm lerr es :: rest =>
    if has_symlinks_recursive (.dir nm lerr es) (current_depth + 1) max_depth then
      if (build_symlink_tree (.dir nm lerr es) (current_depth + 1) max_depth).2 then
        (.dirNode nm (build_symlink_tree (.dir nm lerr es) (current_depth + 1) max_depth).1
            :: (buildLoop rest current_depth max_depth).1, true)
      else buildLoop rest current_depth max_depth
    else buildLoop rest current_depth max_depth
termination_by sizeOf entries
decreasing_by all_goals (simp_wf <;> omega)

end

mutual

/-- The summary re-scan of `main` (lines 209–214): `sum(1 for p in
target.rglob("*") if p.is_symlink() and (depth is None or
len(p.relative_to(target).parts) <= depth))`.  In Python 3.12 the `**` walk
does not follow symlinks and silently skips unlistable directories, so it
enumerates exactly the entries of listable non-symlink directories; children
of the argument sit at depth `c + 1`. -/
def rglobCount (e : FSEntry) (c : Nat) (m : Option Nat) : Nat :=
  match e with
  | .dir _ none entries => rglobLoop entries c m
  | _ => 0

/-- Per-listing accumulation for `rglobCount`. -/
def rglobLoop (l : List FSEntry) (c : Nat) (m : Option Nat) : Nat :=
  match l with
  | [] => 0
  | .symlink _ _ :: rest =>
    (if withinLimit (c + 1) m then 1 else 0) + rglobLoop rest c m
  | .dir nm lerr es :: rest =>
    rglobCount (.dir nm lerr es) (c + 1) m + rglobLoop rest c m
  | .file _ :: rest => rglobLoop rest c m

end

/-- Number of symlink report entries (`linkEntry` or `linkError` nodes) in a
node list, transitively. -/
def countTreeLinks : List RNode → Nat
  | [] => 0
  | .linkEntry _ _ _ :: rest => 1 + countTreeLinks rest
  | .linkError _ _ :: rest => 1 + countTreeLinks rest
  | .errNode _ :: rest => countTreeLinks rest
  | .dirNode _ cs :: rest => countTreeLinks cs + countTreeLinks rest

mutual

/-- Specification-side predicate: the listable non-symlink-directory subtree
of `e` (whose children are at depth `c + 1` below the scan root) contains a
symlink at depth `≤ k`; `k = none` means no depth bound. -/
def existsSymlinkLE (e : FSEntry) (c : Nat) (k : Option Nat) : Bool :=
  match e with
  | .dir _ none entries => exLoop entries c k
  | _ => false

/-- Per-listing disjunction for `existsSymlinkLE`. -/
def exLoop (l : List FSEntry) (c : Nat) (k : Option Nat) : Bool :=
  match l with
  | [] => false
  | .symlink _ _ :: rest => withinLimit (c + 1) k || exLoop rest c k
  | .dir nm lerr es :: rest =>
    existsSymlinkLE (.dir nm lerr es) (c + 1) k || exLoop rest c k
  | .file _ :: rest => exLoop rest c k

end

/-- Shift an optional depth bound up by one. -/
def bumpOpt : Option Nat → Option Nat
  | none => none
  | some k => some (k + 1)

mutual

/-- Total number of symlink entries in the model tree, listable or not. -/
def totalSymlinks : FSEntry → Nat
  | .file _ => 0
  | .symlink _ _ => 1
  | .dir _ _ es => totalLoop es

/-- List version of `totalSymlinks`. -/
def totalLoop : List FSEntry → Nat
  | [] => 0
  | e :: rest => totalSymlinks e + totalLoop rest

end

mutual

/-- No directory anywhere in the model tree fails to list. -/
def noListErr : FSEntry → Bool
  | .file _ => true
  | .symlink _ _ => true
  | .dir _ lerr es => lerr.isNone && noErrLoop es

/-- List version of `noListErr`. -/
def noErrLoop : List FSEntry → Bool
  | [] => true
  | e :: rest => noListErr e && noErrLoop rest

end

/-- The pruning invariant on a report-node list: every `dirNode`, at any
depth, has at least one symlink report entry among its transitive
descendants (and its children satisfy the same invariant). -/
def pruneOKList : List RNode → Bool
  | [] => true
  | .dirNode _ cs :: rest =>
    (countTreeLinks cs != 0) && pruneOKList cs && pruneOKList rest
  | _ :: rest => pruneOKList rest

/-- All symlink report entries in a node list whose own nodes sit at depth
`c` are within the depth limit `m`, recursively (children of a `dirNode` at
depth `c` sit at depth `c + 1`). -/
def linksWithin : List RNode → Nat → Option Nat → Bool
  | [], _, _ => true
  | .linkEntry _ _ _ :: rest, c, m => withinLimit c m && linksWithin rest c m
  | .linkError _ _ :: rest, c, m => withinLimit c m && linksWithin rest c m
  | .errNode _ :: rest, c, m => linksWithin rest c m
  | .dirNode _ cs :: rest, c, m => linksWithin cs (c + 1) m && linksWithin rest c m

/-- No error placeholder node anywhere in a node list. -/
def noPH : List RNode → Bool
  | [] => true
  | .errNode _ :: _ => false
  | .dirNode _ cs :: rest => noPH cs && noPH rest
  | _ :: rest => noPH rest

/-- The state of the scan root as `main` sees it: the expanded absolute path
is missing, exists but is not a directory, or is a directory with the given
modelled contents. -/
inductive RootState where
  | missing
  | notDir
  | dirRoot (fs : FSEntry)

/-- The observable outcome of one run of `main` (lines 151–217): the exit
code, whether the traversal was entered at all, whether the tree was
printed, whether the `No symlinks found` line was printed instead, and the
`Symlinks shown` summary count when one is printed. -/
structure MainResult where
  exitCode : Nat
  walkStarted : Bool
  printedTree : Bool
  printedNoSymlinks : Bool
  summary : Option Nat
deriving Repr, DecidableEq

/-- Lines 182–217 of `main`: missing root or non-directory root exit with
code 1 before any traversal; otherwise the tree is built, and either the
`No symlinks found` message is printed (exit 0), or the tree is printed
followed by the re-scanned summary count (exit 0). -/
def mainRun (st : RootState) (m : Option Nat) : MainResult :=
  match st with
  | .missing => ⟨1, false, false, false, none⟩
  | .notDir => ⟨1, false, false, false, none⟩
  | .dirRoot fs =>
    if (build_symlink_tree fs 0 m).2 then
      ⟨0, true, true, false, some (rglobCount fs 0 m)⟩
    else ⟨0, true, false, true, none⟩

mutual

/-- Fuel-indexed rendering of `has_symlinks_recursive`: one unit of fuel per
recursive step, `none` on fuel exhaustion.  Used to state termination. -/
def hasSymFuel : Nat → FSEntry → Nat → Option Nat → Option Bool
  | 0, _, _, _ => none
  | fuel + 1, path, c, m =>
    if overLimit c m then some false
    else
      match path with
      | .dir _ none entries => hasSymLoopFuel fuel entries c m
      | _ => some false

/-- Fuel-indexed rendering of `hasSymLoop`. -/
def hasSymLoopFuel : Nat → List FSEntry → Nat → Option Nat → Option Bool
  | 0, _, _, _ => none
  | fuel + 1, l, c, m =>
    match l with
    | [] => some false
    | e :: rest =>
      if e.is_symlink && withinLimit c m then some true
      else if e.isPlainDir then
        match hasSymFuel fuel e (c + 1) m with
        | none => none
        | some true => some true
        | some false => hasSymLoopFuel fuel rest c m
      else hasSymLoopFuel fuel rest c m

end

mutual

/-- Fuel-indexed rendering of `build_symlink_tree`: one unit of fuel per
recursive step, `none` on fuel exhaustion.  Used to state termination and to
evaluate the walker on concrete model trees. -/
def buildFuel : Nat → FSEntry → Nat → Option Nat → Option (List RNode × Bool)
  | 0, _, _, _ => none
  | fuel + 1, current_dir, c, m =>
    if overLimit c m then some ([], false)
    else
      match current_dir with
      | .dir _ (some .perm) _ => some ([.errNode "[Permission denied]"], false)
      | .dir _ (some (.os msg)) _ =>
        some ([.errNode ("[Error: " ++ msg ++ "]")], false)
      | .dir _ none entries => buildLoopFuel fuel (sortEntries entries) c m
      | _ => some ([.errNode "[Error: NotADirectoryError]"], false)

/-- Fuel-indexed rendering of `buildLoop`. -/
def buildLoopFuel : Nat → List FSEntry → Nat → Option Nat →
    Option (List RNode × Bool)
  | 0, _, _, _ => none
  | fuel + 1, l, c, m =>
    match l with
    | [] => some ([], false)
    | .file _ :: rest => buildLoopFuel fuel rest c m
    | .symlink nm info :: rest =>
      if overLimit (c + 1) m then buildLoopFuel fuel rest c m
      else
        match buildLoopFuel fuel rest c m with
        | none => none
        | some r => some (symlinkNode nm info :: r.1, true)
    | .dir nm lerr es :: rest =>
      if has_symlinks_recursive (.dir nm lerr es) (c + 1) m then
        match buildFuel fuel (.dir nm lerr es) (c + 1) m with
        | none => none
        | some sub =>
          if sub.2 then
            match buildLoopFuel fuel rest c m with
            | none => none
            | some r => some (.dirNode nm sub.1 :: r.1, true)
          else buildLoopFuel fuel rest c m
      else buildLoopFuel fuel rest c m

end

/-- A well-behaved symlink: `readlink()` succeeds with the absolute target
`/t`, which is an existing non-directory. -/
def infoAbsOK : SymlinkInfo := ⟨none, true, "/t", none, "", false, .ok true, .ok true⟩

/-- The probe outcomes of a relative symlink `c -> a` inside `/scan` where
`/scan/a` exists but the process working directory is elsewhere and contains
no `a`: `readlink()` returns the relative path `a`; display resolution
against the parent succeeds with `/scan/a`; the code's existence probe
`target.exists()` resolves `a` against the working directory and reports
`False`; following the link itself, the target exists. -/
def infoRelCwd : SymlinkInfo :=
  ⟨none, false, "a", some "/scan/a", "/scan/a", false, .ok false, .ok true⟩

/-- An absolute symlink to an existing directory, so `is_dir()` follows it
and reports `True`. -/
def infoDirLink : SymlinkInfo := ⟨none, true, "/stow/pkg", none, "", true, .ok true, .ok true⟩

/-- Scan root `/scan` holding the single relative symlink `c -> a` of
`infoRelCwd`. -/
def fsC1 : FSEntry := .dir "scan" none [.symlink "c" infoRelCwd]

/-- A root holding a plain directory `z` (with a symlink inside, so it is not
pruned) and a symlink `a` to an existing directory. -/
def fsC2 : FSEntry :=
  .dir "root" none [.dir "z" none [.symlink "s" infoAbsOK], .symlink "a" infoDirLink]

/-- A directory whose only symlink sits one level down. -/
def fsC3 : FSEntry := .dir "d" none [.symlink "s" infoAbsOK]

/-- A root whose subdirectory `locked` cannot be listed (permission denied)
and contains a symlink behind the failure. -/
def fsC7 : FSEntry :=
  .dir "root" none [.dir "locked" (some .perm) [.symlink "hidden" infoAbsOK]]

/-- A small healthy fixture: a symlink at depth 1 and one at depth 2. -/
def fsW : FSEntry :=
  .dir "home" none [.symlink "lnk" infoAbsOK, .dir "sub" none [.symlink "deep" infoAbsOK]]

/-- A directory with no contents at all. -/
def fsEmpty : FSEntry := .dir "home" none []

theorem fsEntry_sizeOf_pos (e : FSEntry) : 0 < sizeOf e := by
  cases e <;> simp_arith

theorem fsList_sizeOf_pos (l : List FSEntry) : 0 < sizeOf l := by
  cases l <;> simp_arith

/-- Induction over the nested filesystem tree: to prove `P` everywhere it
suffices to prove it for files, symlinks, and directories assuming it for
every child entry. -/
theorem fs_induction (P : FSEntry → Prop)
    (hfile : ∀ n, P (.file n))
    (hsym : ∀ n i, P (.symlink n i))
    (hdir : ∀ n lerr es, (∀ e ∈ es, P e) → P (.dir n lerr es)) :
    ∀ e, P e := by
  have key : ∀ fuel (e : FSEntry), sizeOf e ≤ fuel → P e := by
    intro fuel
    induction fuel with
    | zero =>
      intro e he
      have := fsEntry_sizeOf_pos e
      omega
    | succ n ih =>
      intro e he
      cases e with
      | file nm => exact hfile nm
      | symlink nm i => exact hsym nm i
      | dir nm lerr es =>
        refine hdir nm lerr es fun x hx => ih x ?_
        have h1 := List.sizeOf_lt_of_mem hx
        simp only [FSEntry.dir.sizeOf_spec] at he
        omega
  exact fun e => key (sizeOf e) e le_rfl

theorem hasSymFuel_spec :
    ∀ fuel,
      (∀ e c m, sizeOf e ≤ fuel →
        hasSymFuel fuel e c m = some (has_symlinks_recursive e c m)) ∧
      (∀ l c m, sizeOf l ≤ fuel →
        hasSymLoopFuel fuel l c m = some (hasSymLoop l c m)) := by
  intro fuel
  induction fuel with
  | zero =>
    constructor
    · intro e _ _ he
      have := fsEntry_sizeOf_pos e
      omega
    · intro l _ _ hl
      have := fsList_sizeOf_pos l
      omega
  | succ n ih =>
    obtain ⟨ihE, ihL⟩ := ih
    constructor
    · intro e c m he
      cases e with
      | file nm => simp [hasSymFuel, has_symlinks_recursive]
      | symlink nm i => simp [hasSymFuel, has_symlinks_recursive]
      | dir nm lerr es =>
        simp only [FSEntry.dir.sizeOf_spec] at he
        cases lerr with
        | none =>
          simp only [hasSymFuel, has_symlinks_recursive]
          rw [ihL es c m (by omega)]
          by_cases hov : overLimit c m = true <;> simp [hov]
        | some err => simp [hasSymFuel, has_symlinks_recursive]
    · intro l c m hl
      cases l with
      | nil => simp [hasSymLoopFuel, hasSymLoop]
      | cons e rest =>
        simp only [List.cons.sizeOf_spec] at hl
        simp only [hasSymLoopFuel, hasSymLoop]
        rw [ihE e (c + 1) m (by omega)]
        by_cases h1 : (e.is_symlink && withinLimit c m) = true
        · simp [h1]
        · simp only [h1, if_false]
          by_cases h2 : e.isPlainDir = true
          · simp only [h2, if_true]
            cases hrec : has_symlinks_recursive e (c + 1) m <;>
              simp [ihL rest c m (by omega)]
          · simp [h2, ihL rest c m (by omega)]

theorem overLimit_eq_not_within (c : Nat) (m : Option Nat) :
    overLimit c m = !withinLimit c m := by
  cases m with
  | none => rfl
  | some k =>
    simp only [overLimit, withinLimit, ← decide_not]
    exact decide_eq_decide.mpr (by omega)

theorem withinLimit_bump (c : Nat) (m : Option Nat) :
    withinLimit (c + 1) (bumpOpt m) = withinLimit c m := by
  cases m with
  | none => rfl
  | some k =>
    simp only [withinLimit, bumpOpt]
    exact decide_eq_decide.mpr (by omega)

theorem withinLimit_le (c : Nat) {k j : Nat} (h : k ≤ j)
    (hw : withinLimit c (some k) = true) : withinLimit c (some j) = true := by
  simp only [withinLimit, decide_eq_true_eq] at *
  omega

theorem exLoop_false_aux (l : List FSEntry)
    (hP : ∀ e ∈ l, ∀ c j, j ≤ c → existsSymlinkLE e c (some j) = false) :
    ∀ c j, j ≤ c → exLoop l c (some j) = false := by
  induction l with
  | nil => intro c j _; rfl
  | cons e rest ih =>
    intro c j h
    have hrest := ih (fun x hx => hP x (List.mem_cons_of_mem _ hx)) c j h
    cases e with
    | file nm => simpa [exLoop] using hrest
    | symlink nm i =>
      have hw : withinLimit (c + 1) (some j) = false := by
        simp only [withinLimit, decide_eq_false_iff_not]
        omega
      simp [exLoop, hw, hrest]
    | dir nm lerr es =>
      have hd := hP (.dir nm lerr es) (List.mem_cons_self _ _) (c + 1) j (by omega)
      simp [exLoop, hd, hrest]

theorem exLE_false_of_ge :
    ∀ e : FSEntry, ∀ c j, j ≤ c → existsSymlinkLE e c (some j) = false := by
  refine fs_induction _ (fun n => ?_) (fun n i => ?_) (fun n lerr es ih => ?_)
  · intro c j _; rfl
  · intro c j _; rfl
  · intro c j h
    cases lerr with
    | none => exact exLoop_false_aux es ih c j h
    | some err => rfl

theorem exLoop_false_of_ge (l : List FSEntry) :
    ∀ c j, j ≤ c → exLoop l c (some j) = false :=
  exLoop_false_aux l fun e _ => exLE_false_of_ge e

theorem exLE_mono_aux (l : List FSEntry)
    (hP : ∀ e ∈ l, ∀ c k j, k ≤ j → existsSymlinkLE e c (some k) = true →
      existsSymlinkLE e c (some j) = true) :
    ∀ c k j, k ≤ j → exLoop l c (some k) = true → exLoop l c (some j) = true := by
  induction l with
  | nil => intro c k j _ h; exact h
  | cons e rest ih =>
    intro c k j hkj h
    have ihrest := ih fun x hx => hP x (List.mem_cons_of_mem _ hx)
    cases e with
    | file nm =>
      simp only [exLoop] at h ⊢
      exact ihrest c k j hkj h
    | symlink nm i =>
      simp only [exLoop, Bool.or_eq_true] at h ⊢
      rcases h with h | h
      · exact Or.inl (withinLimit_le _ hkj h)
      · exact Or.inr (ihrest c k j hkj h)
    | dir nm lerr es =>
      simp only [exLoop, Bool.or_eq_true] at h ⊢
      rcases h with h | h
      · exact Or.inl (hP (.dir nm lerr es) (List.mem_cons_self _ _) (c + 1) k j hkj h)
      · exact Or.inr (ihrest c k j hkj h)

theorem exLE_mono :
    ∀ e : FSEntry, ∀ c k j, k ≤ j → existsSymlinkLE e c (some k) = true →
      existsSymlinkLE e c (some j) = true := by
  refine fs_induction _ (fun n => ?_) (fun n i => ?_) (fun n lerr es ih => ?_)
  · intro c k j _ h; exact h
  · intro c k j _ h; exact h
  · intro c k j hkj h
    cases lerr with
    | none =>
      simp only [existsSymlinkLE] at h ⊢
      exact exLE_mono_aux es ih c k j hkj h
    | some err => exact h

theorem hasSymLoop_eq_aux (l : List FSEntry)
    (hP : ∀ e ∈ l, ∀ c m,
      has_symlinks_recursive e c m = existsSymlinkLE e c (bumpOpt m)) :
    ∀ c m, hasSymLoop l c m = exLoop l c (bumpOpt m) := by
  induction l with
  | nil => intro c m; rfl
  | cons e rest ih =>
    intro c m
    have hrest := ih (fun x hx => hP x (List.mem_cons_of_mem _ hx)) c m
    cases e with
    | file nm =>
      simpa [hasSymLoop, exLoop, FSEntry.is_symlink, FSEntry.isPlainDir]
        using hrest
    | symlink nm i =>
      have hb := withinLimit_bump c m
      cases hw : withinLimit c m <;>
        simp [hasSymLoop, exLoop, FSEntry.is_symlink, FSEntry.isPlainDir,
          hw, hb, hrest]
    | dir nm lerr es =>
      have hd := hP (.dir nm lerr es) (List.mem_cons_self _ _) (c + 1) m
      cases hv : existsSymlinkLE (.dir nm lerr es) (c + 1) (bumpOpt m) <;>
        simp [hasSymLoop, exLoop, FSEntry.is_symlink, FSEntry.isPlainDir,
          hd, hv, hrest]

theorem hasSym_eq_exLE :
    ∀ e : FSEntry, ∀ c m,
      has_symlinks_recursive e c m = existsSymlinkLE e c (bumpOpt m) := by
  refine fs_induction _ (fun n => ?_) (fun n i => ?_) (fun n lerr es ih => ?_)
  · intro c m
    simp [has_symlinks_recursive, existsSymlinkLE]
  · intro c m
    simp [has_symlinks_recursive, existsSymlinkLE]
  · intro c m
    cases lerr with
    | none =>
      by_cases hov : overLimit c m = true
      · cases m with
        | none => simp [overLimit] at hov
        | some k =>
          simp only [overLimit, decide_eq_true_eq] at hov
          simp only [has_symlinks_recursive, existsSymlinkLE, bumpOpt]
          rw [exLoop_false_of_ge es c (k + 1) (by omega)]
          simp [overLimit, hov]
      · simp only [has_symlinks_recursive, existsSymlinkLE, hov, if_false]
        exact hasSymLoop_eq_aux es ih c m
    | some err =>
      simp [has_symlinks_recursive, existsSymlinkLE]

theorem rglob_zero_aux (l : List FSEntry)
    (hP : ∀ e ∈ l, ∀ c m, rglobCount e c m = 0 ↔ existsSymlinkLE e c m = false) :
    ∀ c m, rglobLoop l c m = 0 ↔ exLoop l c m = false := by
  induction l with
  | nil => intro c m; simp [rglobLoop, exLoop]
  | cons e rest ih =>
    intro c m
    have hrest := ih (fun x hx => hP x (List.mem_cons_of_mem _ hx)) c m
    cases e with
    | file nm => simpa [rglobLoop, exLoop] using hrest
    | symlink nm i =>
      cases hw : withinLimit (c + 1) m <;> simp [rglobLoop, exLoop, hw, hrest]
    | dir nm lerr es =>
      have hd := hP (.dir nm lerr es) (List.mem_cons_self _ _) (c + 1) m
      simp only [rglobLoop, exLoop, Nat.add_eq_zero, Bool.or_eq_false_iff]
      constructor
      · rintro ⟨h1, h2⟩
        exact ⟨hd.mp h1, hrest.mp h2⟩
      · rintro ⟨h1, h2⟩
        exact ⟨hd.mpr h1, hrest.mpr h2⟩

theorem rglob_zero_iff :
    ∀ e : FSEntry, ∀ c m, rglobCount e c m = 0 ↔ existsSymlinkLE e c m = false := by
  refine fs_induction _ (fun n => ?_) (fun n i => ?_) (fun n lerr es ih => ?_)
  · intro c m; simp [rglobCount, existsSymlinkLE]
  · intro c m; simp [rglobCount, existsSymlinkLE]
  · intro c m
    cases lerr with
    | none =>
      simp only [rglobCount, existsSymlinkLE]
      exact rglob_zero_aux es ih c m
    | some err => simp [rglobCount, existsSymlinkLE]

theorem rglobLoop_perm {l l' : List FSEntry} (h : l.Perm l') :
    ∀ c m, rglobLoop l c m = rglobLoop l' c m := by
  induction h with
  | nil => intro c m; rfl
  | cons x _ ih =>
    intro c m
    cases x <;> simp [rglobLoop, ih c m]
  | swap x y l =>
    intro c m
    cases x <;> cases y <;> simp [rglobLoop] <;> omega
  | trans _ _ ih₁ ih₂ =>
    intro c m
    rw [ih₁, ih₂]

theorem hasSymLoop_eq (l : List FSEntry) :
    ∀ c m, hasSymLoop l c m = exLoop l c (bumpOpt m) :=
  hasSymLoop_eq_aux l fun e _ => hasSym_eq_exLE e

theorem exLoop_perm {l l' : List FSEntry} (h : l.Perm l') :
    ∀ c k, exLoop l c k = exLoop l' c k := by
  induction h with
  | nil => intro c k; rfl
  | cons x _ ih =>
    intro c k
    cases x <;> simp [exLoop, ih c k]
  | swap x y l =>
    intro c k
    cases x <;> cases y <;> simp [exLoop] <;>
      (try rw [Bool.or_left_comm])
  | trans _ _ ih₁ ih₂ =>
    intro c k
    rw [ih₁, ih₂]

theorem hasSymLoop_perm {l l' : List FSEntry} (h : l.Perm l') (c : Nat)
    (m : Option Nat) : hasSymLoop l c m = hasSymLoop l' c m := by
  rw [hasSymLoop_eq, hasSymLoop_eq, exLoop_perm h]

theorem countTreeLinks_symlinkNode (nm : String) (i : SymlinkInfo)
    (ns : List RNode) :
    countTreeLinks (symlinkNode nm i :: ns) = 1 + countTreeLinks ns := by
  cases h : i.readlinkErr <;> simp [symlinkNode, h, countTreeLinks]

theorem buildLoop_count_aux (l : List FSEntry)
    (hP : ∀ e ∈ l, ∀ c m,
      countTreeLinks (build_symlink_tree e c m).1 = rglobCount e c m ∧
      ((build_symlink_tree e c m).2 = true ↔ rglobCount e c m ≠ 0)) :
    ∀ c m, countTreeLinks (buildLoop l c m).1 = rglobLoop l c m ∧
      ((buildLoop l c m).2 = true ↔ rglobLoop l c m ≠ 0) := by
  induction l with
  | nil =>
    intro c m
    exact ⟨by simp [buildLoop, rglobLoop, countTreeLinks],
      by simp [buildLoop, rglobLoop]⟩
  | cons e rest ih =>
    intro c m
    obtain ⟨hr1, hr2⟩ := ih (fun x hx => hP x (List.mem_cons_of_mem _ hx)) c m
    cases e with
    | file nm => simpa [buildLoop, rglobLoop] using ⟨hr1, hr2⟩
    | symlink nm i =>
      by_cases hov : overLimit (c + 1) m = true
      · have hw : withinLimit (c + 1) m = false := by
          rw [overLimit_eq_not_within] at hov
          cases hwl : withinLimit (c + 1) m <;> simp_all
        simpa [buildLoop, rglobLoop, hov, hw] using ⟨hr1, hr2⟩
      · have hw : withinLimit (c + 1) m = true := by
          rw [overLimit_eq_not_within] at hov
          cases hwl : withinLimit (c + 1) m <;> simp_all
        constructor
        · simp [buildLoop, rglobLoop, hov, hw, countTreeLinks_symlinkNode, hr1]
        · simp [buildLoop, rglobLoop, hov, hw]
    | dir nm lerr es =>
      obtain ⟨hd1, hd2⟩ := hP (.dir nm lerr es) (List.mem_cons_self _ _) (c + 1) m
      by_cases hrec : has_symlinks_recursive (.dir nm lerr es) (c + 1) m = true
      · by_cases hsf : (build_symlink_tree (.dir nm lerr es) (c + 1) m).2 = true
        · have hnz : rglobCount (.dir nm lerr es) (c + 1) m ≠ 0 := hd2.mp hsf
          constructor
          · simp [buildLoop, rglobLoop, hrec, hsf, countTreeLinks, hd1, hr1]
          · simp [buildLoop, rglobLoop, hrec, hsf]
            omega
        · have hz : rglobCount (.dir nm lerr es) (c + 1) m = 0 := by
            by_contra hnz
            exact hsf (hd2.mpr hnz)
          simpa [buildLoop, rglobLoop, hrec, hsf, hz] using ⟨hr1, hr2⟩
      · have hex : existsSymlinkLE (.dir nm lerr es) (c + 1) (bumpOpt m) = false := by
          rw [← hasSym_eq_exLE]
          exact Bool.not_eq_true _ ▸ (Bool.eq_false_iff.mpr hrec)
        have hex2 : existsSymlinkLE (.dir nm lerr es) (c + 1) m = false := by
          cases m with
          | none => exact hex
          | some k =>
            cases hval : existsSymlinkLE (.dir nm lerr es) (c + 1) (some k) with
            | false => rfl
            | true =>
              have := exLE_mono (.dir nm lerr es) (c + 1) k (k + 1)
                (Nat.le_succ k) hval
              simp [bumpOpt] at hex
              exact absurd this (by simp [hex])
        have hz : rglobCount (.dir nm lerr es) (c + 1) m = 0 :=
          (rglob_zero_iff _ _ _).mpr hex2
        simpa [buildLoop, rglobLoop, hrec, hz] using ⟨hr1, hr2⟩

theorem build_count_spec :
    ∀ e : FSEntry, ∀ c m,
      countTreeLinks (build_symlink_tree e c m).1 = rglobCount e c m ∧
      ((build_symlink_tree e c m).2 = true ↔ rglobCount e c m ≠ 0) := by
  refine fs_induction _ (fun n => ?_) (fun n i => ?_) (fun n lerr es ih => ?_)
  · intro c m
    constructor
    · simp only [build_symlink_tree, rglobCount]
      split <;> simp [countTreeLinks]
    · simp only [build_symlink_tree, rglobCount]
      split <;> simp
  · intro c m
    constructor
    · simp only [build_symlink_tree, rglobCount]
      split <;> simp [countTreeLinks]
    · simp only [build_symlink_tree, rglobCount]
      split <;> simp
  · intro c m
    cases lerr with
    | none =>
      by_cases hov : overLimit c m = true
      · cases m with
        | none => simp [overLimit] at hov
        | some k =>
          simp only [overLimit, decide_eq_true_eq] at hov
          have hz : rglobCount (.dir n none es) c (some k) = 0 :=
            (rglob_zero_iff _ _ _).mpr (exLE_false_of_ge _ c k (by omega))
          simp [build_symlink_tree, overLimit, hov, hz, countTreeLinks]
      · have hmem : ∀ e ∈ sortEntries es, ∀ c m,
            countTreeLinks (build_symlink_tree e c m).1 = rglobCount e c m ∧
            ((build_symlink_tree e c m).2 = true ↔ rglobCount e c m ≠ 0) := by
          intro x hx
          exact ih x ((List.mem_insertionSort keyRel).mp hx)
        obtain ⟨h1, h2⟩ := buildLoop_count_aux (sortEntries es) hmem c m
        have hperm : rglobLoop (sortEntries es) c m = rglobLoop es c m :=
          rglobLoop_perm (List.perm_insertionSort keyRel es) c m
        constructor
        · simp only [build_symlink_tree, rglobCount]
          rw [if_neg hov, h1, hperm]
        · simp only [build_symlink_tree, rglobCount]
          rw [if_neg hov, h2, hperm]
    | some err =>
      cases err <;>
        simp [build_symlink_tree, rglobCount, countTreeLinks] <;>
        split <;> simp [countTreeLinks]

theorem pruneOK_symlinkNode (nm : String) (i : SymlinkInfo) (ns : List RNode) :
    pruneOKList (symlinkNode nm i :: ns) = pruneOKList ns := by
  cases h : i.readlinkErr <;> simp [symlinkNode, h, pruneOKList]

theorem buildLoop_pruneOK_aux (l : List FSEntry)
    (hP : ∀ e ∈ l, ∀ c m, pruneOKList (build_symlink_tree e c m).1 = true) :
    ∀ c m, pruneOKList (buildLoop l c m).1 = true := by
  induction l with
  | nil => intro c m; simp [buildLoop, pruneOKList]
  | cons e rest ih =>
    intro c m
    have hrest := ih (fun x hx => hP x (List.mem_cons_of_mem _ hx)) c m
    cases e with
    | file nm => simpa [buildLoop] using hrest
    | symlink nm i =>
      by_cases hov : overLimit (c + 1) m = true
      · simpa [buildLoop, hov] using hrest
      · simp [buildLoop, hov, pruneOK_symlinkNode, hrest]
    | dir nm lerr es =>
      by_cases hrec : has_symlinks_recursive (.dir nm lerr es) (c + 1) m = true
      · by_cases hsf : (build_symlink_tree (.dir nm lerr es) (c + 1) m).2 = true
        · have hd := build_count_spec (.dir nm lerr es) (c + 1) m
          have hnz :
              countTreeLinks (build_symlink_tree (.dir nm lerr es) (c + 1) m).1 ≠ 0 := by
            rw [hd.1]
            exact hd.2.mp hsf
          have hsub := hP (.dir nm lerr es) (List.mem_cons_self _ _) (c + 1) m
          simp [buildLoop, hrec, hsf, pruneOKList, hnz, hsub, hrest]
        · simpa [buildLoop, hrec, hsf] using hrest
      · simpa [buildLoop, hrec] using hrest

theorem build_pruneOK :
    ∀ e : FSEntry, ∀ c m, pruneOKList (build_symlink_tree e c m).1 = true := by
  refine fs_induction _ (fun n => ?_) (fun n i => ?_) (fun n lerr es ih => ?_)
  · intro c m
    simp only [build_symlink_tree]
    split <;> simp [pruneOKList]
  · intro c m
    simp only [build_symlink_tree]
    split <;> simp [pruneOKList]
  · intro c m
    cases lerr with
    | none =>
      by_cases hov : overLimit c m = true
      · simp [build_symlink_tree, hov, pruneOKList]
      · simp only [build_symlink_tree]
        rw [if_neg hov]
        exact buildLoop_pruneOK_aux (sortEntries es)
          (fun x hx => ih x ((List.mem_insertionSort keyRel).mp hx)) c m
    | some err =>
      cases err <;>
        (simp only [build_symlink_tree]; split <;> simp [pruneOKList])

theorem linksWithin_symlinkNode (nm : String) (i : SymlinkInfo)
    (ns : List RNode) (c : Nat) (m : Option Nat) :
    linksWithin (symlinkNode nm i :: ns) c m =
      (withinLimit c m && linksWithin ns c m) := by
  cases h : i.readlinkErr <;> simp [symlinkNode, h, linksWithin]

theorem buildLoop_linksWithin_aux (l : List FSEntry)
    (hP : ∀ e ∈ l, ∀ c m,
      linksWithin (build_symlink_tree e c m).1 (c + 1) m = true) :
    ∀ c m, linksWithin (buildLoop l c m).1 (c + 1) m = true := by
  induction l with
  | nil => intro c m; simp [buildLoop, linksWithin]
  | cons e rest ih =>
    intro c m
    have hrest := ih (fun x hx => hP x (List.mem_cons_of_mem _ hx)) c m
    cases e with
    | file nm => simpa [buildLoop] using hrest
    | symlink nm i =>
      by_cases hov : overLimit (c + 1) m = true
      · simpa [buildLoop, hov] using hrest
      · have hw : withinLimit (c + 1) m = true := by
          rw [overLimit_eq_not_within] at hov
          cases hwl : withinLimit (c + 1) m <;> simp_all
        simp [buildLoop, hov, linksWithin_symlinkNode, hw, hrest]
    | dir nm lerr es =>
      by_cases hrec : has_symlinks_recursive (.dir nm lerr es) (c + 1) m = true
      · by_cases hsf : (build_symlink_tree (.dir nm lerr es) (c + 1) m).2 = true
        · have hsub := hP (.dir nm lerr es) (List.mem_cons_self _ _) (c + 1) m
          simp [buildLoop, hrec, hsf, linksWithin, hsub, hrest]
        · simpa [buildLoop, hrec, hsf] using hrest
      · simpa [buildLoop, hrec] using hrest

theorem build_linksWithin :
    ∀ e : FSEntry, ∀ c m,
      linksWithin (build_symlink_tree e c m).1 (c + 1) m = true := by
  refine fs_induction _ (fun n => ?_) (fun n i => ?_) (fun n lerr es ih => ?_)
  · intro c m
    simp only [build_symlink_tree]
    split <;> simp [linksWithin]
  · intro c m
    simp only [build_symlink_tree]
    split <;> simp [linksWithin]
  · intro c m
    cases lerr with
    | none =>
      by_cases hov : overLimit c m = true
      · simp [build_symlink_tree, hov, linksWithin]
      · simp only [build_symlink_tree]
        rw [if_neg hov]
        exact buildLoop_linksWithin_aux (sortEntries es)
          (fun x hx => ih x ((List.mem_insertionSort keyRel).mp hx)) c m
    | some err =>
      cases err <;>
        (simp only [build_symlink_tree]; split <;> simp [linksWithin])

theorem noPH_symlinkNode (nm : String) (i : SymlinkInfo) (ns : List RNode) :
    noPH (symlinkNode nm i :: ns) = noPH ns := by
  cases h : i.readlinkErr <;> simp [symlinkNode, h, noPH]

theorem buildLoop_noPH_aux (l : List FSEntry)
    (hP : ∀ e ∈ l, ∀ c m, has_symlinks_recursive e c m = true →
      noPH (build_symlink_tree e c m).1 = true) :
    ∀ c m, noPH (buildLoop l c m).1 = true := by
  induction l with
  | nil => intro c m; simp [buildLoop, noPH]
  | cons e rest ih =>
    intro c m
    have hrest := ih (fun x hx => hP x (List.mem_cons_of_mem _ hx)) c m
    cases e with
    | file nm => simpa [buildLoop] using hrest
    | symlink nm i =>
      by_cases hov : overLimit (c + 1) m = true
      · simpa [buildLoop, hov] using hrest
      · simp [buildLoop, hov, noPH_symlinkNode, hrest]
    | dir nm lerr es =>
      by_cases hrec : has_symlinks_recursive (.dir nm lerr es) (c + 1) m = true
      · by_cases hsf : (build_symlink_tree (.dir nm lerr es) (c + 1) m).2 = true
        · have hsub := hP (.dir nm lerr es) (List.mem_cons_self _ _) (c + 1) m hrec
          simp [buildLoop, hrec, hsf, noPH, hsub, hrest]
        · simpa [buildLoop, hrec, hsf] using hrest
      · simpa [buildLoop, hrec] using hrest

theorem build_noPH :
    ∀ e : FSEntry, ∀ c m, has_symlinks_recursive e c m = true →
      noPH (build_symlink_tree e c m).1 = true := by
  refine fs_induction _ (fun n => ?_) (fun n i => ?_) (fun n lerr es ih => ?_)
  · intro c m hrec
    simp only [has_symlinks_recursive] at hrec
    split at hrec <;> simp_all
  · intro c m hrec
    simp only [has_symlinks_recursive] at hrec
    split at hrec <;> simp_all
  · intro c m hrec
    cases lerr with
    | none =>
      by_cases hov : overLimit c m = true
      · simp [has_symlinks_recursive, hov] at hrec
      · simp only [build_symlink_tree]
        rw [if_neg hov]
        exact buildLoop_noPH_aux (sortEntries es)
          (fun x hx => ih x ((List.mem_insertionSort keyRel).mp hx)) c m
    | some err =>
      simp only [has_symlinks_recursive] at hrec
      split at hrec <;> simp_all

theorem overLimit_zero (m : Option Nat) : overLimit 0 m = false := by
  cases m <;> simp [overLimit]

theorem build_root_noPH (nm : String) (es : List FSEntry) (m : Option Nat) :
    noPH (build_symlink_tree (.dir nm none es) 0 m).1 = true := by
  simp only [build_symlink_tree]
  rw [if_neg (by rw [overLimit_zero]; exact Bool.false_ne_true)]
  exact buildLoop_noPH_aux (sortEntries es)
    (fun x _ c' m' h => build_noPH x c' m' h) 0 m

theorem noErrLoop_rglob_aux (l : List FSEntry)
    (hP : ∀ e ∈ l, noListErr e = true → ∀ c nm lerr es,
      e = .dir nm lerr es → rglobCount e c none = totalLoop es)
    (hne : noErrLoop l = true) :
    ∀ c, rglobLoop l c none = totalLoop l := by
  induction l with
  | nil => intro c; rfl
  | cons e rest ih =>
    intro c
    simp only [noErrLoop, Bool.and_eq_true] at hne
    have hrest := ih (fun x hx hnx => hP x (List.mem_cons_of_mem _ hx) hnx) hne.2 c
    cases e with
    | file nm => simp [rglobLoop, totalLoop, totalSymlinks, hrest]
    | symlink nm i =>
      simp [rglobLoop, totalLoop, totalSymlinks, withinLimit, hrest]
    | dir nm lerr es =>
      have hd := hP (.dir nm lerr es) (List.mem_cons_self _ _) hne.1 (c + 1)
        nm lerr es rfl
      simp [rglobLoop, totalLoop, totalSymlinks, hd, hrest]

theorem noErr_rglob :
    ∀ e : FSEntry, noListErr e = true → ∀ c nm lerr es,
      e = .dir nm lerr es → rglobCount e c none = totalLoop es := by
  refine fs_induction _ (fun n => ?_) (fun n i => ?_) (fun n lerr es ih => ?_)
  · intro _ c nm lerr es h
    exact absurd h (by simp)
  · intro _ c nm lerr es h
    exact absurd h (by simp)
  · intro hne c nm' lerr' es' h
    injection h with h1 h2 h3
    subst h2
    subst h3
    simp only [noListErr, Bool.and_eq_true, Option.isNone_iff_eq_none] at hne
    obtain ⟨he, hne2⟩ := hne
    subst he
    simp only [rglobCount]
    exact noErrLoop_rglob_aux es (fun x hx hnx => ih x hx hnx) hne2 c

theorem buildLoop_filter (l : List FSEntry) :
    ∀ c m, buildLoop (l.filter fun e => !e.isFile) c m = buildLoop l c m := by
  induction l with
  | nil => intro c m; rfl
  | cons e rest ih =>
    intro c m
    cases e with
    | file nm =>
      rw [show List.filter (fun e => !e.isFile) (FSEntry.file nm :: rest) =
        List.filter (fun e => !e.isFile) rest from rfl]
      simp only [buildLoop, ih]
    | symlink nm i =>
      rw [show List.filter (fun e => !e.isFile) (FSEntry.symlink nm i :: rest) =
        FSEntry.symlink nm i :: List.filter (fun e => !e.isFile) rest from rfl]
      simp only [buildLoop, ih]
    | dir nm lerr es =>
      rw [show List.filter (fun e => !e.isFile) (FSEntry.dir nm lerr es :: rest) =
        FSEntry.dir nm lerr es :: List.filter (fun e => !e.isFile) rest from rfl]
      simp only [buildLoop, ih]

theorem rglobLoop_filter (l : List FSEntry) :
    ∀ c m, rglobLoop (l.filter fun e => !e.isFile) c m = rglobLoop l c m := by
  induction l with
  | nil => intro c m; rfl
  | cons e rest ih =>
    intro c m
    cases e with
    | file nm =>
      rw [show List.filter (fun e => !e.isFile) (FSEntry.file nm :: rest) =
        List.filter (fun e => !e.isFile) rest from rfl]
      simp only [rglobLoop, ih]
    | symlink nm i =>
      rw [show List.filter (fun e => !e.isFile) (FSEntry.symlink nm i :: rest) =
        FSEntry.symlink nm i :: List.filter (fun e => !e.isFile) rest from rfl]
      simp only [rglobLoop, ih]
    | dir nm lerr es =>
      rw [show List.filter (fun e => !e.isFile) (FSEntry.dir nm lerr es :: rest) =
        FSEntry.dir nm lerr es :: List.filter (fun e => !e.isFile) rest from rfl]
      simp only [rglobLoop, ih]

theorem hasSymLoop_filter (l : List FSEntry) :
    ∀ c m, hasSymLoop (l.filter fun e => !e.isFile) c m = hasSymLoop l c m := by
  induction l with
  | nil => intro c m; rfl
  | cons e rest ih =>
    intro c m
    cases e with
    | file nm =>
      rw [show List.filter (fun e => !e.isFile) (FSEntry.file nm :: rest) =
        List.filter (fun e => !e.isFile) rest from rfl]
      simp only [hasSymLoop, FSEntry.is_symlink, FSEntry.isPlainDir,
        Bool.false_and, if_false, ih]
      simp
    | symlink nm i =>
      rw [show List.filter (fun e => !e.isFile) (FSEntry.symlink nm i :: rest) =
        FSEntry.symlink nm i :: List.filter (fun e => !e.isFile) rest from rfl]
      simp only [hasSymLoop, ih]
    | dir nm lerr es =>
      rw [show List.filter (fun e => !e.isFile) (FSEntry.dir nm lerr es :: rest) =
        FSEntry.dir nm lerr es :: List.filter (fun e => !e.isFile) rest from rfl]
      simp only [hasSymLoop, ih]

theorem buildFuel_spec :
    ∀ fuel,
      (∀ e c m, sizeOf e ≤ fuel →
        buildFuel fuel e c m = some (build_symlink_tree e c m)) ∧
      (∀ l c m, sizeOf l ≤ fuel →
        buildLoopFuel fuel l c m = some (buildLoop l c m)) := by
  intro fuel
  induction fuel with
  | zero =>
    constructor
    · intro e _ _ he
      have := fsEntry_sizeOf_pos e
      omega
    · intro l _ _ hl
      have := fsList_sizeOf_pos l
      omega
  | succ n ih =>
    obtain ⟨ihE, ihL⟩ := ih
    constructor
    · intro e c m he
      cases e with
      | file nm =>
        simp only [buildFuel, build_symlink_tree]
        split <;> rfl
      | symlink nm i =>
        simp only [buildFuel, build_symlink_tree]
        split <;> rfl
      | dir nm lerr es =>
        simp only [FSEntry.dir.sizeOf_spec] at he
        cases lerr with
        | none =>
          simp only [buildFuel, build_symlink_tree]
          rw [ihL (sortEntries es) c m (by rw [sizeOf_sortEntries]; omega)]
          by_cases hov : overLimit c m = true <;> simp [hov]
        | some err =>
          cases err <;> (simp only [buildFuel, build_symlink_tree]; split <;> rfl)
    · intro l c m hl
      cases l with
      | nil => simp [buildLoopFuel, buildLoop]
      | cons e rest =>
        simp only [List.cons.sizeOf_spec] at hl
        cases e with
        | file nm => simp [buildLoopFuel, buildLoop, ihL rest c m (by omega)]
        | symlink nm i =>
          simp only [buildLoopFuel, buildLoop]
          rw [ihL rest c m (by omega)]
          by_cases hov : overLimit (c + 1) m = true <;> simp [hov]
        | dir nm lerr es =>
          simp only [buildLoopFuel, buildLoop]
          rw [ihE (.dir nm lerr es) (c + 1) m (by omega),
            ihL rest c m (by omega)]
          by_cases hrec :
              has_symlinks_recursive (.dir nm lerr es) (c + 1) m = true <;>
            simp [hrec]
          by_cases hsf :
              (build_symlink_tree (.dir nm lerr es) (c + 1) m).2 = true <;>
            simp [hsf]

/-- Transfer a kernel-computed run of the fuel-indexed walker to
`build_symlink_tree` itself, for evaluating the walker on concrete trees. -/
theorem build_eval_of_fuel {e : FSEntry} {c : Nat} {m : Option Nat}
    {r : List RNode × Bool} (h : buildFuel (sizeOf e) e c m = some r) :
    build_symlink_tree e c m = r := by
  have h2 := (buildFuel_spec (sizeOf e)).1 e c m le_rfl
  rw [h] at h2
  exact (Option.some.inj h2).symm

/-- C1: the claim says a symlink entry is flagged broken iff the link's
ultimate target does not exist (or the existence check raises), including a
relative raw target interpreted against the link's parent.  The code instead
calls `target.exists()` on the raw `readlink()` result, which resolves a
relative target against the process working directory.  At the failing input
(`/scan/c -> a` with `/scan/a` existing, working directory elsewhere), the
walker emits the entry flagged broken even though the link's own target
exists. -/
theorem C1_eval :
    build_symlink_tree fsC1 0 none = ([.linkEntry "c" "/scan/a" true], true) ∧
    infoRelCwd.existsViaLink = .ok true :=
  ⟨build_eval_of_fuel rfl, rfl⟩

/-- C2 counterexample: the claim says all non-symlink directories are
displayed before all symlinks in one directory.  In `fsC2` the symlink `a`
points to an existing directory, so its sort key uses `is_dir() = True` and
it is displayed *before* the plain directory `z`. -/
theorem C2_counterexample :
    build_symlink_tree fsC2 0 none =
      ([.linkEntry "a" "/stow/pkg" false,
        .dirNode "z" [.linkEntry "s" "/t" false]], true) ∧
    FSEntry.is_symlink (.symlink "a" infoDirLink) = true ∧
    FSEntry.isPlainDir (.dir "z" none [.symlink "s" infoAbsOK]) = true :=
  ⟨build_eval_of_fuel rfl, rfl, rfl⟩

/-- C2 amended: within one directory, entries are displayed sorted by the key
`(not is_dir(), lowercased name)` where `is_dir()` follows symlinks — plain
directories *and* symlinks to existing directories come first, then the rest,
case-insensitively by name within each group; the displayed list is a
permutation of the listing, and the ordering does not affect pruning (the
pruning pre-check is invariant under reordering the listing). -/
theorem C2_amended :
    ∀ (l : List FSEntry) (c : Nat) (m : Option Nat),
      (sortEntries l).Perm l ∧
      List.Sorted keyRel (sortEntries l) ∧
      hasSymLoop (sortEntries l) c m = hasSymLoop l c m :=
  fun l c m =>
    ⟨List.perm_insertionSort keyRel l, List.sorted_insertionSort keyRel l,
      hasSymLoop_perm (List.perm_insertionSort keyRel l) c m⟩

/-- C3 counterexample: the claim says `has_symlinks_recursive` returns true
iff the subtree contains a symlink at depth ≤ limit (a call at
`current_depth = c` scans a directory whose own depth below the scan root is
`c`, so its direct symlinks are at depth `c + 1`).  For a directory at depth
1 whose only symlink is at depth 2, the call with limit 1 returns `true`
although no symlink is within the limit. -/
theorem C3_counterexample :
    has_symlinks_recursive fsC3 1 (some 1) = true ∧
    existsSymlinkLE fsC3 1 (some 1) = false :=
  ⟨rfl, rfl⟩

/-- C3 amended: `has_symlinks_recursive path c m` returns true iff the
listable non-symlink-directory subtree of `path` contains a symlink at depth
at most `limit + 1` (one more than the limit; no bound when no limit is
set), where the children of `path` sit at depth `c + 1` below the scan
root. -/
theorem C3_amended :
    ∀ (e : FSEntry) (c : Nat) (m : Option Nat),
      has_symlinks_recursive e c m = existsSymlinkLE e c (bumpOpt m) :=
  hasSym_eq_exLE

/-- C4: every `dirNode` in any tree produced by `build_symlink_tree` has at
least one symlink report entry among its transitive descendants, and every
symlink report entry in the produced tree is within the active depth limit —
so no empty directory node ever appears in the emitted tree. -/
theorem C4_theorem :
    ∀ (e : FSEntry) (c : Nat) (m : Option Nat),
      pruneOKList (build_symlink_tree e c m).1 = true ∧
      linksWithin (build_symlink_tree e c m).1 (c + 1) m = true :=
  fun e c m => ⟨build_pruneOK e c m, build_linksWithin e c m⟩

/-- C5: whenever `main` prints the tree (a walk that found symlinks), the
trailing summary count it prints — recomputed by the independent `rglob`
re-scan with the same depth filter — equals the number of symlink report
entries in the rendered tree. -/
theorem C5_theorem :
    ∀ (fs : FSEntry) (m : Option Nat),
      (mainRun (.dirRoot fs) m).printedTree = true →
      (mainRun (.dirRoot fs) m).summary =
        some (countTreeLinks (build_symlink_tree fs 0 m).1) := by
  intro fs m h
  by_cases hf : (build_symlink_tree fs 0 m).2 = true
  · simp only [mainRun, hf, if_true]
    rw [(build_count_spec fs 0 m).1]
  · exfalso
    simp [mainRun, hf] at h

/-- Witness for C5 at the concrete fixture `fsW`. -/
theorem C5_witness :
    (mainRun (.dirRoot fsW) none).printedTree = true ∧
    (mainRun (.dirRoot fsW) none).summary =
      some (countTreeLinks (build_symlink_tree fsW 0 none).1) := by
  have h : (mainRun (.dirRoot fsW) none).printedTree = true := by
    simp [mainRun, build_eval_of_fuel (e := fsW) (c := 0) (m := none) rfl]
  exact ⟨h, C5_theorem fsW none h⟩

/-- C6: every symlink report entry emitted under depth limit `n` is at depth
at most `n` (deeper symlinks are skipped: they are neither rendered nor, by
C5's count equality, counted); and with no limit set, on a filesystem whose
directories are all listable, the rendered tree contains every symlink of
the tree. -/
theorem C6_theorem :
    ∀ (fs : FSEntry) (n : Nat),
      linksWithin (build_symlink_tree fs 0 (some n)).1 1 (some n) = true ∧
      (FSEntry.isPlainDir fs = true → noListErr fs = true →
        countTreeLinks (build_symlink_tree fs 0 none).1 = totalSymlinks fs) := by
  intro fs n
  constructor
  · simpa using build_linksWithin fs 0 (some n)
  · intro hdir hne
    cases fs with
    | file nm => simp [FSEntry.isPlainDir] at hdir
    | symlink nm i => simp [FSEntry.isPlainDir] at hdir
    | dir nm lerr es =>
      rw [(build_count_spec (.dir nm lerr es) 0 none).1,
        noErr_rglob (.dir nm lerr es) hne 0 nm lerr es rfl]
      rfl

/-- Witness for C6 at the concrete fixture `fsW`. -/
theorem C6_witness :
    linksWithin (build_symlink_tree fsW 0 (some 1)).1 1 (some 1) = true ∧
    countTreeLinks (build_symlink_tree fsW 0 none).1 = totalSymlinks fsW :=
  ⟨(C6_theorem fsW 1).1, (C6_theorem fsW 1).2 rfl rfl⟩

/-- C7 counterexample: the claim says every listing failure during the walk
attaches an inline placeholder in that branch of the report.  In `fsC7` the
subdirectory `locked` fails to list with a permission error, but the
pre-check swallows the error and rejects the branch, so the walker never
descends into it and the produced report is empty — no placeholder appears
anywhere. -/
theorem C7_counterexample :
    build_symlink_tree fsC7 0 none = ([], false) ∧
    fsC7 = .dir "root" none [.dir "locked" (some .perm) [.symlink "hidden" infoAbsOK]] :=
  ⟨build_eval_of_fuel rfl, rfl⟩

/-- C7 amended: an inline error placeholder node is attached exactly when the
directory `build_symlink_tree` itself lists cannot be listed, which in a
static filesystem is only the scan root (and then the walk reports no
findings); an unlistable directory below the root is silently treated as
link-free by the pre-check and skipped, while traversal continues in sibling
branches — no listing error below the root ever produces a placeholder in
the report, and none aborts the walk. -/
theorem C7_amended :
    ∀ (nm msg : String) (es : List FSEntry) (m : Option Nat),
      build_symlink_tree (.dir nm (some .perm) es) 0 m =
        ([.errNode "[Permission denied]"], false) ∧
      build_symlink_tree (.dir nm (some (.os msg)) es) 0 m =
        ([.errNode ("[Error: " ++ msg ++ "]")], false) ∧
      noPH (build_symlink_tree (.dir nm none es) 0 m).1 = true := by
  intro nm msg es m
  refine ⟨?_, ?_, build_root_noPH nm es m⟩
  · simp [build_symlink_tree, overLimit_zero]
  · simp [build_symlink_tree, overLimit_zero]

/-- C8: `main` exits 0 exactly when the scan root exists and is a directory;
when the walk finds nothing it prints the `No symlinks found` line instead of
an empty tree and still exits 0; a missing or non-directory root exits with
code 1 and the traversal never starts. -/
theorem C8_theorem :
    ∀ (m : Option Nat) (fs : FSEntry),
      (mainRun .missing m).exitCode = 1 ∧
      (mainRun .missing m).walkStarted = false ∧
      (mainRun .notDir m).exitCode = 1 ∧
      (mainRun .notDir m).walkStarted = false ∧
      (mainRun (.dirRoot fs) m).exitCode = 0 ∧
      ((build_symlink_tree fs 0 m).2 = false →
        (mainRun (.dirRoot fs) m).printedNoSymlinks = true ∧
        (mainRun (.dirRoot fs) m).printedTree = false) := by
  intro m fs
  refine ⟨rfl, rfl, rfl, rfl, ?_, ?_⟩
  · simp only [mainRun]
    split <;> rfl
  · intro hf
    simp [mainRun, hf]

/-- Witness for C8 at the concrete empty root `fsEmpty`. -/
theorem C8_witness :
    (mainRun (.dirRoot fsEmpty) none).exitCode = 0 ∧
    (mainRun (.dirRoot fsEmpty) none).printedNoSymlinks = true ∧
    (mainRun (.dirRoot fsEmpty) none).printedTree = false := by
  have h := C8_theorem none fsEmpty
  have hb : (build_symlink_tree fsEmpty 0 none).2 = false := by
    rw [show build_symlink_tree fsEmpty 0 none = ([], false) from
      build_eval_of_fuel rfl]
  exact ⟨h.2.2.2.2.1, (h.2.2.2.2.2 hb).1, (h.2.2.2.2.2 hb).2⟩

/-- C9: entries that are neither symlinks nor directories contribute nothing
to the walk: removing them from a listing changes neither the nodes built
nor the `found_symlinks` result, neither the summary re-scan count nor the
pre-check — even though they do participate in the sorted listing (sorting
preserves them). -/
theorem C9_theorem :
    ∀ (l : List FSEntry) (c : Nat) (m : Option Nat),
      buildLoop (l.filter fun e => !e.isFile) c m = buildLoop l c m ∧
      rglobLoop (l.filter fun e => !e.isFile) c m = rglobLoop l c m ∧
      hasSymLoop (l.filter fun e => !e.isFile) c m = hasSymLoop l c m ∧
      (sortEntries l).length = l.length :=
  fun l c m =>
    ⟨buildLoop_filter l c m, rglobLoop_filter l c m, hasSymLoop_filter l c m,
      List.length_insertionSort keyRel l⟩

/-- C10: both recursions terminate on every finite filesystem tree, with or
without a depth limit and regardless of symlink cycles, because they descend
only into non-symlink directories (symlinks are leaves of the scanned tree):
the fuel-indexed renderings, which charge one unit per recursive call and
fail on exhaustion, complete within `sizeOf` of the tree and agree with the
total functions. -/
theorem C10_theorem :
    ∀ (e : FSEntry) (c : Nat) (m : Option Nat),
      hasSymFuel (sizeOf e) e c m = some (has_symlinks_recursive e c m) ∧
      buildFuel (sizeOf e) e c m = some (build_symlink_tree e c m) :=
  fun e c m =>
    ⟨(hasSymFuel_spec (sizeOf e)).1 e c m le_rfl,
      (buildFuel_spec (sizeOf e)).1 e c m le_rfl⟩

end SymlinkTree
